import Mathlib

set_option maxHeartbeats 1000000

namespace SparkModel

/-- JSON-like scalar values carried by device attributes and feature records. -/
inductive Value where
  | str (s : String)
  | bool (b : Bool)
  | num (n : Int)
deriving DecidableEq

/-- An identity-keyed record of an entry collection (spec section 3:
`Record = \x7bkey: string (identity), ...fields\x7d`, matching the feature
descriptors `\x7bkey, val, value, mutable\x7d` of the test fixture). -/
structure Record where
  key : String
  fields : List (String × Value)
deriving DecidableEq

/-- Modelled from the spec: a raw collection entry as received in a
`replaceAll` batch, whose identity `key` may be missing (spec section 7). -/
structure RawRecord where
  key : Option String
  fields : List (String × Value)
deriving DecidableEq

/-- Modelled from the spec: the `MalformedEntryError` raised per entry that
lacks the identity `key` (spec section 7); the implementation is not part of
the sources, only the spec describes it. -/
structure MalformedEntryError where
  entry : RawRecord
deriving DecidableEq

/-- A dotted event path, as an ordered list of segments from a root. -/
abbrev Path := List String

/-- Render a path with dot separators, as in `change:device.features`. -/
def dotted : Path → String
  | [] => ""
  | [x] => x
  | x :: y :: rest => x ++ "." ++ dotted (y :: rest)

/-- All nonempty prefixes of a path, shortest first. -/
def qualPrefixes : Path → List Path
  | [] => []
  | x :: xs => [x] :: (qualPrefixes xs).map (fun q => x :: q)

/-- Boolean prefix test on paths. -/
def pathLe : Path → Path → Bool
  | [], _ => true
  | _ :: _, [] => false
  | x :: xs, y :: ys => x == y && pathLe xs ys

/-- Modelled from the spec: the event names fired at one listener scope during
a single dispatch pass whose changed descendant paths (relative to that scope)
are `s`.  Per spec section 4.3, each distinct changed path-suffix yields its
qualified `change:<path>` exactly once (deduplicated across the pass) and a
single generic `change` closes the pass; a pass with zero changed leaves emits
nothing (spec sections 4.3 and 8). -/
def firedEvents (s : List Path) : List String :=
  if s.isEmpty then []
  else ((s.flatMap qualPrefixes).map (fun p => "change:" ++ dotted p)).dedup ++ ["change"]

/-- Restrict a set of absolute changed paths to those under a scope, making
them relative to that scope. -/
def relativize (scope : Path) (s : List Path) : List Path :=
  (s.filter (fun p => pathLe scope p)).map (fun p => p.drop scope.length)

/-- Events delivered at a listener scope by the dispatch pass whose absolute
changed paths are `s`. -/
def eventsAt (s : List Path) (scope : Path) : List String :=
  firedEvents (relativize scope s)

/-- Lookup in an AttributeSet (ordered association list, spec section 3). -/
def lookupVal : List (String × Value) → String → Option Value
  | [], _ => none
  | (k, v) :: rest, key => if k == key then some v else lookupVal rest key

/-- Modelled from the spec: the changed-key set of `AttributeSet.replaceAll`,
the symmetric-difference classification of spec section 4.1 (different value,
only-new, only-old are all counted as changed). -/
def attrsChangedKeys (old upd : List (String × Value)) : List String :=
  ((old.map Prod.fst ++ upd.map Prod.fst).dedup).filter
    (fun k => !(lookupVal old k == lookupVal upd k))

/-- Modelled from the spec: changed paths of `AttributeSet.set(key, value)`
(spec section 4.1): no-op when the value is already present, else the single
key path. -/
def setChangedPaths (attrsPath : Path) (entries : List (String × Value))
    (k : String) (v : Value) : List Path :=
  if lookupVal entries k == some v then [] else [attrsPath ++ [k]]

/-- Modelled from the spec: changed paths of `AttributeSet.replaceAll`, one per
changed key (spec section 4.1). -/
def attrsReplaceChangedPaths (attrsPath : Path) (old upd : List (String × Value)) :
    List Path :=
  (attrsChangedKeys old upd).map (fun k => attrsPath ++ [k])

/-- Lookup an entry-collection record by its identity key. -/
def lookupRec : List Record → String → Option Record
  | [], _ => none
  | r :: rest, k => if r.key == k then some r else lookupRec rest k

/-- Identity keys of a collection, in source order. -/
def recKeys (items : List Record) : List String := items.map Record.key

/-- Modelled from the spec: keys classified as added by the identity-keyed diff
of `EntryCollection.replaceAll` (spec section 4.2): present in the new sequence
but absent from the old one. -/
def collAddedKeys (old upd : List Record) : List String :=
  (recKeys upd).filter (fun k => (lookupRec old k).isNone)

/-- Modelled from the spec: keys classified as removed by the identity diff:
present in the old sequence but absent from the new one. -/
def collRemovedKeys (old upd : List Record) : List String :=
  (recKeys old).filter (fun k => (lookupRec upd k).isNone)

/-- Modelled from the spec: keys classified as updated by the identity diff:
present in both sequences with records that are not deep-equal. -/
def collUpdatedKeys (old upd : List Record) : List String :=
  (recKeys old).filter (fun k =>
    match lookupRec old k, lookupRec upd k with
    | some a, some b => !(a == b)
    | _, _ => false)

/-- Whether the identity-keyed diff reports any change at all. -/
def collChangedB (old upd : List Record) : Bool :=
  !(collAddedKeys old upd).isEmpty || !(collRemovedKeys old upd).isEmpty ||
    !(collUpdatedKeys old upd).isEmpty

/-- Modelled from the spec: `upsert` of one record into a collection (spec
section 4.2): replaces the record with the same identity key, else appends. -/
def collAdd (items : List Record) (r : Record) : List Record :=
  match lookupRec items r.key with
  | some _ => items.map (fun x => if x.key == r.key then r else x)
  | none => items ++ [r]

/-- Modelled from the spec: changed paths of a single `add`/`upsert` call at
the collection living at `collPath`: nothing when the identical record is
already present, else the collection path once (spec sections 4.2 and 4.3). -/
def addChangedPaths (collPath : Path) (items : List Record) (r : Record) :
    List Path :=
  if lookupRec items r.key == some r then [] else [collPath]

/-- Modelled from the spec: changed paths of `EntryCollection.replaceAll`: the
collection path once when anything changed, regardless of how many records
changed (spec section 4.2). -/
def collReplaceChangedPaths (collPath : Path) (old upd : List Record) :
    List Path :=
  if collChangedB old upd then [collPath] else []

/-- Convert a raw batch entry to a well-formed record when it has a key. -/
def toRecord (r : RawRecord) : Option Record :=
  match r.key with
  | some k => some ⟨k, r.fields⟩
  | none => none

/-- Modelled from the spec: `replaceAll` over a batch that may contain
malformed entries (spec section 7): each entry lacking the identity key is
rejected individually with a `MalformedEntryError`, the remaining well-formed
entries are processed by the usual identity diff, and the dispatch pass is the
one for the valid entries. Returns (errors, applied items, changed paths). -/
def checkedReplaceAll (collPath : Path) (old : List Record)
    (batch : List RawRecord) :
    List MalformedEntryError × List Record × List Path :=
  ((batch.filter (fun r => r.key.isNone)).map MalformedEntryError.mk,
   batch.filterMap toRecord,
   collReplaceChangedPaths collPath old (batch.filterMap toRecord))

/-- Modelled from the spec: the observable tree (spec section 3).  A node is a
leaf `AttributeSet`, a leaf entry collection, or a spine of uniquely named
children (`nil`/`cons`), which is how an `ObservableNode`'s ordered child
mapping is represented. -/
inductive Node where
  | attrs (entries : List (String × Value))
  | coll (items : List Record)
  | nil
  | cons (name : String) (child : Node) (rest : Node)

/-- Lookup a child of a spine by name (first match). -/
def lookupChild : Node → String → Option Node
  | Node.cons n c rest, name => if n == name then some c else lookupChild rest name
  | _, _ => none

/-- Child names along a spine. -/
def namesOf : Node → List String
  | Node.cons n _ rest => n :: namesOf rest
  | _ => []

/-- Whether a node is a spine (a possibly empty child list). -/
def isSpine : Node → Bool
  | Node.nil => true
  | Node.cons _ _ rest => isSpine rest
  | _ => false

/-- Well-formedness of a tree: child names are unique at every level and
spines are properly terminated (spec section 3 invariants). -/
def wf : Node → Bool
  | Node.attrs _ => true
  | Node.coll _ => true
  | Node.nil => true
  | Node.cons n c rest =>
      !((namesOf rest).contains n) && wf c && wf rest && isSpine rest

/-- Modelled from the spec: the changed-leaf paths produced by walking a
snapshot structurally against the live tree (spec section 4.4): AttributeSets
diff by symmetric difference, entry collections by identity key (contributing
their own path once when changed), spines recurse child by child against the
snapshot slice of the same name; a shape mismatch counts as a change of the
node itself. -/
def changedPaths : Node → Node → List Path
  | Node.attrs o, Node.attrs n => (attrsChangedKeys o n).map (fun k => [k])
  | Node.coll o, Node.coll n => if collChangedB o n then [[]] else []
  | Node.nil, _ => []
  | Node.cons name c rest, s =>
      (match lookupChild s name with
       | some c2 => (changedPaths c c2).map (fun p => name :: p)
       | none => []) ++ changedPaths rest s
  | _, _ => [[]]

/-- Events delivered at a listener scope by a whole-tree `replace(snapshot)`
dispatch pass (spec section 4.4: all subtree passes merged into one). -/
def replaceEventsAt (t s : Node) (scope : Path) : List String :=
  eventsAt (changedPaths t s) scope

/-- Entitlement sibling collection of the observed fixture tree. -/
def entItems : List Record :=
  [⟨"entitlement-feature", [("val", Value.str "true"), ("value", Value.bool true)]⟩]

/-- The observed tree of the test suite: root (spark) with child `device`,
whose child `features` holds the `developer` collection (and an `entitlement`
sibling). -/
def sparkTree (dev : List Record) : Node :=
  Node.cons "device"
    (Node.cons "features"
      (Node.cons "developer" (Node.coll dev)
        (Node.cons "entitlement" (Node.coll entItems) Node.nil))
      Node.nil)
    Node.nil

/-- Events of a dispatch pass tagged with the scope they are delivered at. -/
def ownEvents (p : Path) (s : List Path) : List (Path × String) :=
  (firedEvents s).map (fun e => (p, e))

/-- Modelled from the spec: the ordered trace of one dispatch pass (spec
sections 4.3 and 5).  With the flag set, a node's trace is its children's
traces (in child order, each contiguous) followed by the node's own coalesced
events; with the flag cleared only the spine walk is produced.  This embodies
emit-local before bubble, bottom-up propagation, and sibling blocks that never
interleave. -/
def traceAux (fl : Bool) (p : Path) (t s : Node) : List (Path × String) :=
  match fl, t with
  | true, u => traceAux false p u s ++ ownEvents p (changedPaths u s)
  | false, Node.cons name c rest =>
      (match lookupChild s name with
       | some c2 => traceAux true (p ++ [name]) c c2
       | none => []) ++ traceAux false p rest s
  | false, _ => []
termination_by 2 * sizeOf t + (if fl then 1 else 0)
decreasing_by
  all_goals simp_arith [Node.cons.sizeOf_spec]

/-- The full ordered event trace of one dispatch pass at the root. -/
def fullTrace (t s : Node) : List (Path × String) := traceAux true [] t s

/-- Every element satisfying `P` occurs before every element satisfying `Q`. -/
def SplitBefore (l : List (Path × String)) (P Q : Path × String → Prop) : Prop :=
  ∃ A B, l = A ++ B ∧ (∀ x ∈ A, ¬ Q x) ∧ (∀ x ∈ B, ¬ P x)

/-- The event is delivered at a strict descendant scope of `p`. -/
def scopeExt (p : Path) (x : Path × String) : Prop :=
  pathLe p x.1 = true ∧ x.1 ≠ p

/-- The event is delivered exactly at scope `p`. -/
def scopeIs (p : Path) (x : Path × String) : Prop := x.1 = p

/-- The event is delivered at or below scope `q`. -/
def under (q : Path) (x : Path × String) : Prop := pathLe q x.1 = true

/-- Parameters accepted by `Team.create` (team.js): `displayName` and
`participants` may be absent, matching the JavaScript falsiness checks. -/
structure TeamParams where
  displayName : Option String
  summary : Option String
  participants : Option (List String)

/-- The request issued by a successful `Team.create` (team.js lines 80-85,
with the payload pieces `_prepareTeam` sets). -/
structure TeamRequest where
  method : String
  service : String
  resource : String
  bodyObjectType : String
  bodyParticipants : List String

/-- JavaScript falsiness of an optional string (`!params.displayName`). -/
def strFalsy : Option String → Bool
  | none => true
  | some s => s == ""

/-- The check `!params.participants || params.participants.length === 0`. -/
def listMissing : Option (List String) → Bool
  | none => true
  | some l => l.length == 0

/-- Lodash `uniq`: deduplicate keeping the first occurrence of each element. -/
def uniq : List String → List String
  | [] => []
  | x :: xs => x :: (uniq xs).filter (fun y => !(y == x))

/-- Team.create (team.js lines 64-87): reject without issuing a request when
`displayName` is falsy or `participants` is missing or empty; otherwise
resolve each participant to a UUID, prepend the device's own `userId`,
deduplicate with lodash `uniq`, and POST the payload to the `teams` resource
of the `conversation` service. -/
def teamCreate (userId : String) (resolve : String → String) (p : TeamParams) :
    Except String TeamRequest :=
  if strFalsy p.displayName then
    Except.error "params.displayName is required"
  else if listMissing p.participants then
    Except.error "params.participants is required"
  else
    Except.ok ⟨"POST", "conversation", "teams", "team",
      uniq (userId :: ((p.participants.getD []).map resolve))⟩

/-- Argument to `Messages.remove`: either a message object (its `id` field is
used) or a bare id string (`const id = message.id || message`). -/
inductive MessageRef where
  | obj (id : String)
  | str (s : String)

/-- The id extracted by `message.id || message`. -/
def messageId : MessageRef → String
  | MessageRef.obj i => i
  | MessageRef.str s => s

/-- The HTTP request issued by `Messages.remove`. -/
structure DeleteRequest where
  method : String
  uri : String
deriving DecidableEq

/-- Request built by `Messages.remove` (part_000 lines 203-209): DELETE on
`<hydraServiceUrl>/messages/<id>`. -/
def removeRequest (base : String) (m : MessageRef) : DeleteRequest :=
  ⟨"DELETE", base ++ "/messages/" ++ messageId m⟩

/-- An HTTP response as observed by the `.then` handler. -/
structure HttpResponse (β : Type) where
  statusCode : Nat
  body : β

/-- Resolution of `Messages.remove` (part_000 lines 210-217): `undefined`
exactly on a 204 status, otherwise the response body. -/
def removeResult {β : Type} (res : HttpResponse β) : Option β :=
  if res.statusCode == 204 then none else some res.body

/-- Membership of a named child along a spine. -/
def spineMem (name : String) (c : Node) : Node → Prop
  | Node.cons n cc rest => (n = name ∧ cc = c) ∨ spineMem name c rest
  | _ => False

theorem str_append_cancel {a b c : String} (h : a ++ b = a ++ c) : b = c := by
  have hd : (a ++ b).data = (a ++ c).data := by rw [h]
  simp [String.data_append] at hd
  exact String.ext hd

theorem qual_ne_change (s : String) : ("change:" ++ s) ≠ "change" := by
  intro h
  have h2 := congrArg String.length h
  rw [String.length_append] at h2
  have e1 : "change:".length = 7 := rfl
  have e2 : "change".length = 6 := rfl
  omega

theorem firedEvents_nil : firedEvents [] = [] := rfl

theorem eventsAt_nil (scope : Path) : eventsAt [] scope = [] := rfl

theorem count_change_firedEvents (s : List Path) (h : s ≠ []) :
    (firedEvents s).count "change" = 1 := by
  unfold firedEvents
  rw [if_neg (by simpa using h)]
  rw [List.count_append]
  have h0 :
      (((s.flatMap qualPrefixes).map (fun p => "change:" ++ dotted p)).dedup).count
        "change" = 0 := by
    apply List.count_eq_zero.mpr
    intro hmem
    rw [List.mem_dedup] at hmem
    obtain ⟨p, _, hp⟩ := List.mem_map.mp hmem
    exact qual_ne_change (dotted p) hp
  rw [h0]
  simp

theorem firedEvents_nodup (s : List Path) : (firedEvents s).Nodup := by
  unfold firedEvents
  by_cases h : s.isEmpty
  · simp [h]
  · rw [if_neg h]
    apply List.Nodup.append (List.nodup_dedup _) (List.nodup_singleton _)
    intro a ha hb
    rw [List.mem_dedup] at ha
    obtain ⟨p, _, hp⟩ := List.mem_map.mp ha
    rw [List.mem_singleton] at hb
    exact qual_ne_change (dotted p) (hp.trans hb)

theorem count_firedEvents_le_one (s : List Path) (e : String) :
    (firedEvents s).count e ≤ 1 :=
  List.nodup_iff_count_le_one.mp (firedEvents_nodup s) e

theorem pathLe_append (p q : Path) : pathLe p (p ++ q) = true := by
  induction p with
  | nil => rfl
  | cons x xs ih => simp [pathLe, ih]

/-- Claim C10: Messages.remove resolves with `undefined` exactly when the HTTP
status is 204 and with the response body otherwise, and builds its DELETE
target from the `id` field of a message object or from a bare id string. -/
theorem claim10_messages_remove :
    ∀ (β : Type) (base oid sid : String) (res : HttpResponse β),
      (removeResult res = none ↔ res.statusCode = 204) ∧
      (res.statusCode ≠ 204 → removeResult res = some res.body) ∧
      removeRequest base (MessageRef.obj oid) =
        ⟨"DELETE", base ++ "/messages/" ++ oid⟩ ∧
      removeRequest base (MessageRef.str sid) =
        ⟨"DELETE", base ++ "/messages/" ++ sid⟩ := by
  intro β base oid sid res
  refine ⟨?_, ?_, rfl, rfl⟩
  · unfold removeResult
    by_cases h : res.statusCode = 204 <;> simp [h]
  · intro h
    unfold removeResult
    simp [h]

/-- Witness for claim C10 at concrete responses. -/
theorem claim10_witness :
    removeResult (⟨200, "payload"⟩ : HttpResponse String) = some "payload" ∧
    removeResult (⟨204, "payload"⟩ : HttpResponse String) = none :=
  ⟨(claim10_messages_remove String "b" "i" "j" ⟨200, "payload"⟩).2.1 (by decide),
   (claim10_messages_remove String "b" "i" "j" ⟨204, "payload"⟩).1.mpr rfl⟩

theorem uniq_nodup (l : List String) : (uniq l).Nodup := by
  induction l with
  | nil => exact List.nodup_nil
  | cons x xs ih =>
    rw [uniq]
    refine List.Nodup.cons ?_ (List.Nodup.filter _ ih)
    intro hmem
    have := List.of_mem_filter hmem
    simp at this

/-- Claim C9: Team.create rejects with an Error, issuing no request, when
`displayName` is falsy or `participants` is missing or empty; otherwise the
request carries the deduplicated resolved participant list with the device's
own userId prepended. -/
theorem claim9_team_create :
    ∀ (userId : String) (resolve : String → String) (p : TeamParams),
      (strFalsy p.displayName = true →
        teamCreate userId resolve p = Except.error "params.displayName is required") ∧
      (strFalsy p.displayName = false → listMissing p.participants = true →
        teamCreate userId resolve p = Except.error "params.participants is required") ∧
      (∀ ps, strFalsy p.displayName = false → p.participants = some ps → ps ≠ [] →
        teamCreate userId resolve p =
          Except.ok ⟨"POST", "conversation", "teams", "team",
            uniq (userId :: ps.map resolve)⟩ ∧
        (uniq (userId :: ps.map resolve)).Nodup ∧
        (uniq (userId :: ps.map resolve)).head? = some userId) := by
  intro userId resolve p
  refine ⟨?_, ?_, ?_⟩
  · intro h
    unfold teamCreate
    rw [if_pos h]
  · intro h1 h2
    unfold teamCreate
    rw [if_neg (by simp [h1]), if_pos h2]
  · intro ps h1 h2 h3
    have hm : listMissing p.participants = false := by
      rw [h2]
      unfold listMissing
      simpa using h3
    refine ⟨?_, uniq_nodup _, ?_⟩
    · unfold teamCreate
      rw [if_neg (by simp [h1]), if_neg (by simp [hm]), h2]
      rfl
    · rw [uniq]
      rfl

/-- Witness for claim C9: a call with a duplicate participant. -/
theorem claim9_witness :
    teamCreate "me" (fun s => s) ⟨some "t", none, some ["a", "a", "me"]⟩ =
      Except.ok ⟨"POST", "conversation", "teams", "team", ["me", "a"]⟩ ∧
    teamCreate "me" (fun s => s) ⟨none, none, some ["a"]⟩ =
      Except.error "params.displayName is required" ∧
    teamCreate "me" (fun s => s) ⟨some "t", none, some []⟩ =
      Except.error "params.participants is required" := by
  refine ⟨?_, ?_, ?_⟩
  · have h := ((claim9_team_create "me" (fun s => s)
      ⟨some "t", none, some ["a", "a", "me"]⟩).2.2 ["a", "a", "me"]
      (by decide) rfl (by decide)).1
    rw [h]
    rfl
  · exact (claim9_team_create "me" (fun s => s) ⟨none, none, some ["a"]⟩).1 (by decide)
  · exact (claim9_team_create "me" (fun s => s) ⟨some "t", none, some []⟩).2.1
      (by decide) (by decide)

/-- Claim C2: a whole-tree replace whose diff touches at least one leaf below
a scope fires that scope's generic `change` exactly once within the merged
dispatch pass, regardless of how many leaves changed; likewise a collection
`replaceAll` that changes any number of records fires the generic `change` of
the collection scope and of every ancestor scope exactly once. -/
theorem claim2_batch_coalescing :
    ∀ (t s : Node) (scope : Path),
      (relativize scope (changedPaths t s) ≠ [] →
        (replaceEventsAt t s scope).count "change" = 1) ∧
      (∀ (old upd : List Record) (collPath rest : Path),
        collChangedB old upd = true → collPath = scope ++ rest →
          (eventsAt (collReplaceChangedPaths collPath old upd) scope).count
            "change" = 1) := by
  intro t s scope
  constructor
  · intro h
    unfold replaceEventsAt eventsAt
    exact count_change_firedEvents _ h
  · intro old upd collPath rest hch hpre
    unfold eventsAt collReplaceChangedPaths
    rw [hch]
    apply count_change_firedEvents
    subst hpre
    simp [relativize, pathLe_append]

/-- Witness for claim C2: a snapshot changing two leaves in different subtrees
still yields a single root `change`. -/
theorem claim2_witness :
    relativize []
        (changedPaths
          (Node.cons "a" (Node.attrs [("x", Value.str "1")])
            (Node.cons "b" (Node.attrs [("y", Value.str "1")]) Node.nil))
          (Node.cons "a" (Node.attrs [("x", Value.str "2")])
            (Node.cons "b" (Node.attrs [("y", Value.str "2")]) Node.nil))) ≠ [] ∧
    (replaceEventsAt
        (Node.cons "a" (Node.attrs [("x", Value.str "1")])
          (Node.cons "b" (Node.attrs [("y", Value.str "1")]) Node.nil))
        (Node.cons "a" (Node.attrs [("x", Value.str "2")])
          (Node.cons "b" (Node.attrs [("y", Value.str "2")]) Node.nil))
        []).count "change" = 1 ∧
    collChangedB [] [⟨"k", []⟩] = true ∧
    (eventsAt (collReplaceChangedPaths ["c"] [] [⟨"k", []⟩]) []).count "change" = 1 := by
  refine ⟨by decide, ?_, by decide, ?_⟩
  · exact (claim2_batch_coalescing _ _ []).1 (by decide)
  · exact (claim2_batch_coalescing Node.nil Node.nil []).2 [] [⟨"k", []⟩] ["c"] ["c"]
      (by decide) rfl

theorem lookupVal_eq_none {l : List (String × Value)} {k : String}
    (h : k ∉ l.map Prod.fst) : lookupVal l k = none := by
  induction l with
  | nil => rfl
  | cons a rest ih =>
    obtain ⟨ak, av⟩ := a
    simp only [List.map_cons, List.mem_cons] at h
    push_neg at h
    rw [lookupVal, if_neg (by simpa using fun e => h.1 e.symm)]
    exact ih h.2

theorem lookupRec_eq_none {l : List Record} {k : String}
    (h : k ∉ recKeys l) : lookupRec l k = none := by
  induction l with
  | nil => rfl
  | cons a rest ih =>
    simp only [recKeys, List.map_cons, List.mem_cons] at h
    push_neg at h
    rw [lookupRec, if_neg (by simpa using fun e => h.1 e.symm)]
    exact ih (by simpa [recKeys] using h.2)

theorem lookupRec_isSome {l : List Record} {k : String}
    (h : k ∈ recKeys l) : (lookupRec l k).isSome = true := by
  induction l with
  | nil => simp [recKeys] at h
  | cons a rest ih =>
    by_cases e : a.key = k
    · rw [lookupRec, if_pos (by simpa using e)]
      rfl
    · simp only [recKeys, List.map_cons, List.mem_cons] at h
      rw [lookupRec, if_neg (by simpa using e)]
      exact ih (by simpa [recKeys] using h.resolve_left (fun ek => e ek.symm))

theorem lookupRec_append_notMem {A L : List Record} {k : String}
    (h : k ∉ recKeys A) : lookupRec (A ++ L) k = lookupRec L k := by
  induction A with
  | nil => rfl
  | cons a rest ih =>
    simp only [recKeys, List.map_cons, List.mem_cons] at h
    push_neg at h
    rw [List.cons_append, lookupRec, if_neg (by simpa using fun e => h.1 e.symm)]
    exact ih (by simpa [recKeys] using h.2)

theorem lookupRec_append_some {A L : List Record} {k : String} {a : Record}
    (h : lookupRec A k = some a) : lookupRec (A ++ L) k = some a := by
  induction A with
  | nil => exact absurd h (by simp [lookupRec])
  | cons b rest ih =>
    rw [List.cons_append, lookupRec]
    rw [lookupRec] at h
    by_cases e : b.key == k
    · rw [if_pos e] at h ⊢
      exact h
    · rw [if_neg e] at h ⊢
      exact ih h

theorem lookupRec_middle {A B : List Record} {x : Record}
    (h : x.key ∉ recKeys A) : lookupRec (A ++ x :: B) x.key = some x := by
  rw [lookupRec_append_notMem h, lookupRec, if_pos (by simp)]

theorem mem_attrsChangedKeys {old upd : List (String × Value)} {k : String} :
    k ∈ attrsChangedKeys old upd ↔ lookupVal old k ≠ lookupVal upd k := by
  unfold attrsChangedKeys
  rw [List.mem_filter, List.mem_dedup, List.mem_append]
  constructor
  · rintro ⟨_, hpred⟩
    simpa using hpred
  · intro hne
    refine ⟨?_, by simpa using hne⟩
    by_contra hnot
    push_neg at hnot
    exact hne ((lookupVal_eq_none hnot.1).trans (lookupVal_eq_none hnot.2).symm)

theorem relativize_own (p : Path) (ks : List String) :
    relativize p (ks.map (fun k => p ++ [k])) = ks.map (fun k => [k]) := by
  unfold relativize
  rw [List.filter_map, List.map_map]
  have hf : (ks.filter ((fun q => pathLe p q) ∘ (fun k => p ++ [k]))) = ks :=
    List.filter_eq_self.mpr (fun a _ => by simpa using pathLe_append p [a])
  rw [hf]
  apply List.map_congr_left
  intro a _
  simp [List.drop_left]

theorem flatMap_single_paths (ks : List String) :
    (ks.map (fun k => ([k] : Path))).flatMap qualPrefixes =
      ks.map (fun k => ([k] : Path)) := by
  rw [List.flatMap_map]
  induction ks with
  | nil => rfl
  | cons x xs ih => simpa [List.flatMap_cons, qualPrefixes] using ih

theorem count_qual_single (ks : List String) (k : String) :
    (firedEvents (ks.map (fun k0 => [k0]))).count ("change:" ++ k) =
      if k ∈ ks then 1 else 0 := by
  match ks with
  | [] => simp [firedEvents]
  | x :: xs =>
    unfold firedEvents
    rw [if_neg (by simp)]
    rw [List.count_append, flatMap_single_paths, List.map_map]
    have hdot : ((fun p => "change:" ++ dotted p) ∘ fun k0 => ([k0] : Path)) =
        fun k0 => "change:" ++ k0 := by
      funext k0
      rfl
    rw [hdot, List.count_dedup]
    have hmem : ("change:" ++ k) ∈ (x :: xs).map (fun k0 => "change:" ++ k0) ↔
        k ∈ x :: xs := by
      rw [List.mem_map]
      constructor
      · rintro ⟨k0, hk0, he⟩
        rwa [str_append_cancel he] at hk0
      · intro hk
        exact ⟨k, hk, rfl⟩
    have hone : (["change"] : List String).count ("change:" ++ k) = 0 :=
      List.count_eq_zero.mpr (by simp [qual_ne_change k])
    rw [hone]
    by_cases hk : k ∈ x :: xs
    · rw [if_pos (hmem.mpr hk), if_pos hk]
    · rw [if_neg (fun hc => hk (hmem.mp hc)), if_neg hk]

/-- Claim C6: AttributeSet.replaceAll classifies exactly the
symmetric-difference keys as changed (different value in both, only-new,
only-old), emits `change:<key>` once per changed key and zero times per
unchanged key, and one generic `change` for the whole call. -/
theorem claim6_attrs_symmetric_difference :
    ∀ (old upd : List (String × Value)) (k : String) (p : Path),
      (k ∈ attrsChangedKeys old upd ↔ lookupVal old k ≠ lookupVal upd k) ∧
      (attrsChangedKeys old upd ≠ [] →
        (eventsAt (attrsReplaceChangedPaths p old upd) p).count "change" = 1) ∧
      (eventsAt (attrsReplaceChangedPaths p old upd) p).count ("change:" ++ k) =
        (if k ∈ attrsChangedKeys old upd then 1 else 0) := by
  intro old upd k p
  have hrel : relativize p (attrsReplaceChangedPaths p old upd) =
      (attrsChangedKeys old upd).map (fun k0 => [k0]) := relativize_own p _
  refine ⟨mem_attrsChangedKeys, ?_, ?_⟩
  · intro hne
    unfold eventsAt
    rw [hrel]
    exact count_change_firedEvents _ (by simpa using hne)
  · unfold eventsAt
    rw [hrel]
    exact count_qual_single _ k

/-- Witness for claim C6: one removed key, one value-changed key, one added
key; each fires its qualified event once and the generic change once. -/
theorem claim6_witness :
    ("a" ∈ attrsChangedKeys [("a", Value.str "1"), ("b", Value.str "2")]
        [("b", Value.str "3"), ("c", Value.str "4")] ↔
      lookupVal [("a", Value.str "1"), ("b", Value.str "2")] "a" ≠
        lookupVal [("b", Value.str "3"), ("c", Value.str "4")] "a") ∧
    (eventsAt (attrsReplaceChangedPaths ["s"] [("a", Value.str "1"), ("b", Value.str "2")]
        [("b", Value.str "3"), ("c", Value.str "4")]) ["s"]).count "change" = 1 ∧
    (eventsAt (attrsReplaceChangedPaths ["s"] [("a", Value.str "1"), ("b", Value.str "2")]
        [("b", Value.str "3"), ("c", Value.str "4")]) ["s"]).count ("change:" ++ "b") = 1 := by
  refine ⟨(claim6_attrs_symmetric_difference _ _ "a" ["s"]).1, ?_, ?_⟩
  · exact (claim6_attrs_symmetric_difference
      [("a", Value.str "1"), ("b", Value.str "2")]
      [("b", Value.str "3"), ("c", Value.str "4")] "a" ["s"]).2.1 (by decide)
  · rw [(claim6_attrs_symmetric_difference
      [("a", Value.str "1"), ("b", Value.str "2")]
      [("b", Value.str "3"), ("c", Value.str "4")] "b" ["s"]).2.2]
    decide

/-- Claim C3: the replaceAll diff classifies records by identity key, never by
array position: replacing the record at index `i = A.length` with a record
bearing a fresh identity key reads as one removal of the old key plus one
addition of the new key, with no update. -/
theorem claim3_identity_over_position :
    ∀ (A B : List Record) (x r : Record),
      (recKeys (A ++ x :: B)).Nodup → r.key ∉ recKeys (A ++ x :: B) →
      collAddedKeys (A ++ x :: B) (A ++ r :: B) = [r.key] ∧
      collRemovedKeys (A ++ x :: B) (A ++ r :: B) = [x.key] ∧
      collUpdatedKeys (A ++ x :: B) (A ++ r :: B) = [] ∧
      collChangedB (A ++ x :: B) (A ++ r :: B) = true := by
  intro A B x r hnd hfresh
  have hkeys_old : recKeys (A ++ x :: B) = recKeys A ++ x.key :: recKeys B := by
    simp [recKeys]
  have hkeys_new : recKeys (A ++ r :: B) = recKeys A ++ r.key :: recKeys B := by
    simp [recKeys]
  rw [hkeys_old] at hnd hfresh
  have hxA : x.key ∉ recKeys A := by
    have := List.disjoint_of_nodup_append hnd
    intro hc
    exact this hc (by simp)
  have hxB : x.key ∉ recKeys B := by
    have := (List.nodup_append.mp hnd).2.1
    simpa using (List.nodup_cons.mp this).1
  have hrA : r.key ∉ recKeys A := fun hc => hfresh (List.mem_append_left _ hc)
  have hrx : r.key ≠ x.key := fun hc => hfresh (by simp [hc])
  have hrB : r.key ∉ recKeys B := fun hc => hfresh (by simp [hc])
  have hlook_old_r : lookupRec (A ++ x :: B) r.key = none :=
    lookupRec_eq_none (by rw [hkeys_old]; simpa using ⟨hrA, hrx, hrB⟩)
  have hlook_new_x : lookupRec (A ++ r :: B) x.key = none := by
    apply lookupRec_eq_none
    rw [hkeys_new]
    simpa using ⟨hxA, fun e => hrx e.symm, hxB⟩
  have hadded : collAddedKeys (A ++ x :: B) (A ++ r :: B) = [r.key] := by
    unfold collAddedKeys
    rw [hkeys_new, List.filter_append, List.filter_cons]
    have h1 : (recKeys A).filter
        (fun k => (lookupRec (A ++ x :: B) k).isNone) = [] := by
      apply List.filter_eq_nil_iff.mpr
      intro k hk
      have := lookupRec_isSome (l := A ++ x :: B) (k := k)
        (by rw [hkeys_old]; exact List.mem_append_left _ hk)
      simp [Option.isNone, Option.isSome] at this ⊢
      obtain ⟨a, ha⟩ := Option.isSome_iff_exists.mp this
      simp [ha]
    have h2 : (recKeys B).filter
        (fun k => (lookupRec (A ++ x :: B) k).isNone) = [] := by
      apply List.filter_eq_nil_iff.mpr
      intro k hk
      have := lookupRec_isSome (l := A ++ x :: B) (k := k)
        (by rw [hkeys_old]; exact List.mem_append_right _ (by simp [hk]))
      obtain ⟨a, ha⟩ := Option.isSome_iff_exists.mp this
      simp [ha]
    rw [h1, h2, if_pos (by simp [hlook_old_r])]
    rfl
  have hremoved : collRemovedKeys (A ++ x :: B) (A ++ r :: B) = [x.key] := by
    unfold collRemovedKeys
    rw [hkeys_old, List.filter_append, List.filter_cons]
    have h1 : (recKeys A).filter
        (fun k => (lookupRec (A ++ r :: B) k).isNone) = [] := by
      apply List.filter_eq_nil_iff.mpr
      intro k hk
      have := lookupRec_isSome (l := A ++ r :: B) (k := k)
        (by rw [hkeys_new]; exact List.mem_append_left _ hk)
      obtain ⟨a, ha⟩ := Option.isSome_iff_exists.mp this
      simp [ha]
    have h2 : (recKeys B).filter
        (fun k => (lookupRec (A ++ r :: B) k).isNone) = [] := by
      apply List.filter_eq_nil_iff.mpr
      intro k hk
      have := lookupRec_isSome (l := A ++ r :: B) (k := k)
        (by rw [hkeys_new]; exact List.mem_append_right _ (by simp [hk]))
      obtain ⟨a, ha⟩ := Option.isSome_iff_exists.mp this
      simp [ha]
    rw [h1, h2, if_pos (by simp [hlook_new_x])]
    rfl
  have hupdated : collUpdatedKeys (A ++ x :: B) (A ++ r :: B) = [] := by
    unfold collUpdatedKeys
    apply List.filter_eq_nil_iff.mpr
    intro k hk
    rw [hkeys_old] at hk
    rcases List.mem_append.mp hk with hkA | hkx
    · cases hsA : lookupRec A k with
      | none =>
        exact absurd (lookupRec_isSome hkA) (by simp [hsA])
      | some a =>
        rw [lookupRec_append_some hsA, lookupRec_append_some hsA]
        simp
    · rcases List.mem_cons.mp hkx with hkeq | hkB
      · subst hkeq
        rw [hlook_new_x]
        cases lookupRec (A ++ x :: B) x.key <;> simp
      · have hkA : k ∉ recKeys A := by
          have := List.disjoint_of_nodup_append hnd
          intro hc
          exact this hc (by simp [hkB])
        have hkx2 : x.key ≠ k := by
          have := (List.nodup_append.mp hnd).2.1
          intro e
          exact (List.nodup_cons.mp this).1 (e ▸ hkB)
        have hkr : r.key ≠ k := fun e => hrB (e ▸ hkB)
        rw [lookupRec_append_notMem hkA, lookupRec_append_notMem hkA,
          lookupRec, if_neg (by simpa using hkx2),
          lookupRec, if_neg (by simpa using hkr)]
        cases lookupRec B k <;> simp
  refine ⟨hadded, hremoved, hupdated, ?_⟩
  unfold collChangedB
  rw [hadded]
  simp

/-- Witness for claim C3: replacing index 1 of a two-element collection with a
differently keyed record is one remove plus one add, no update. -/
theorem claim3_witness :
    collAddedKeys [⟨"f1", []⟩, ⟨"f2", []⟩] [⟨"f1", []⟩, ⟨"another", []⟩] = ["another"] ∧
    collRemovedKeys [⟨"f1", []⟩, ⟨"f2", []⟩] [⟨"f1", []⟩, ⟨"another", []⟩] = ["f2"] ∧
    collUpdatedKeys [⟨"f1", []⟩, ⟨"f2", []⟩] [⟨"f1", []⟩, ⟨"another", []⟩] = [] ∧
    collChangedB [⟨"f1", []⟩, ⟨"f2", []⟩] [⟨"f1", []⟩, ⟨"another", []⟩] = true := by
  have h := claim3_identity_over_position [⟨"f1", []⟩] [] ⟨"f2", []⟩ ⟨"another", []⟩
    (by decide) (by decide)
  simpa using h

theorem attrsChangedKeys_self (e : List (String × Value)) :
    attrsChangedKeys e e = [] := by
  unfold attrsChangedKeys
  exact List.filter_eq_nil_iff.mpr (fun k _ => by simp)

theorem collAddedKeys_self (i : List Record) : collAddedKeys i i = [] := by
  unfold collAddedKeys
  apply List.filter_eq_nil_iff.mpr
  intro k hk
  obtain ⟨a, ha⟩ := Option.isSome_iff_exists.mp (lookupRec_isSome hk)
  simp [ha]

theorem collRemovedKeys_self (i : List Record) : collRemovedKeys i i = [] := by
  unfold collRemovedKeys
  apply List.filter_eq_nil_iff.mpr
  intro k hk
  obtain ⟨a, ha⟩ := Option.isSome_iff_exists.mp (lookupRec_isSome hk)
  simp [ha]

theorem collUpdatedKeys_self (i : List Record) : collUpdatedKeys i i = [] := by
  unfold collUpdatedKeys
  apply List.filter_eq_nil_iff.mpr
  intro k _
  cases lookupRec i k <;> simp

theorem collChangedB_self (i : List Record) : collChangedB i i = false := by
  unfold collChangedB
  rw [collAddedKeys_self, collRemovedKeys_self, collUpdatedKeys_self]
  rfl

/-- Claim C1: a single add of one new entry to the developer collection fires
exactly once at each of the 8 observed listener scopes (the test of
part_000 lines 275-293): the features node's `change:developer`, the device
node's `change:features.developer`, `change:features` and generic `change`,
and the root's generic `change`, `change:device`, `change:device.features`,
`change:device.features.developer`; and the same single-path dispatch results
from replacing the whole tree with the tree whose collection got the entry
appended. -/
theorem claim1_single_add_eight_scopes :
    ∀ (dev : List Record) (r : Record), lookupRec dev r.key = none →
      addChangedPaths ["device", "features", "developer"] dev r =
        [["device", "features", "developer"]] ∧
      changedPaths (sparkTree dev) (sparkTree (collAdd dev r)) =
        [["device", "features", "developer"]] ∧
      (eventsAt (addChangedPaths ["device", "features", "developer"] dev r)
        ["device", "features"]).count "change:developer" = 1 ∧
      (eventsAt (addChangedPaths ["device", "features", "developer"] dev r)
        ["device"]).count "change:features.developer" = 1 ∧
      (eventsAt (addChangedPaths ["device", "features", "developer"] dev r)
        ["device"]).count "change:features" = 1 ∧
      (eventsAt (addChangedPaths ["device", "features", "developer"] dev r)
        ["device"]).count "change" = 1 ∧
      (eventsAt (addChangedPaths ["device", "features", "developer"] dev r)
        []).count "change" = 1 ∧
      (eventsAt (addChangedPaths ["device", "features", "developer"] dev r)
        []).count "change:device" = 1 ∧
      (eventsAt (addChangedPaths ["device", "features", "developer"] dev r)
        []).count "change:device.features" = 1 ∧
      (eventsAt (addChangedPaths ["device", "features", "developer"] dev r)
        []).count "change:device.features.developer" = 1 := by
  intro dev r h
  have h1 : addChangedPaths ["device", "features", "developer"] dev r =
      [["device", "features", "developer"]] := by
    unfold addChangedPaths
    rw [h]
    rfl
  have hAdd : collAdd dev r = dev ++ [r] := by
    unfold collAdd
    rw [h]
  have hmem : r.key ∈ collAddedKeys dev (dev ++ [r]) := by
    unfold collAddedKeys
    rw [List.mem_filter]
    refine ⟨by simp [recKeys], by simp [h]⟩
  have hch : collChangedB dev (dev ++ [r]) = true := by
    unfold collChangedB
    have he : (collAddedKeys dev (dev ++ [r])).isEmpty = false := by
      simpa using List.ne_nil_of_mem hmem
    rw [he]
    rfl
  have hent : collChangedB entItems entItems = false := collChangedB_self _
  have h2 : changedPaths (sparkTree dev) (sparkTree (collAdd dev r)) =
      [["device", "features", "developer"]] := by
    rw [hAdd]
    simp [sparkTree, changedPaths, lookupChild, hch, hent]
  refine ⟨h1, h2, ?_, ?_, ?_, ?_, ?_, ?_, ?_, ?_⟩ <;> (rw [h1]; decide)

/-- Witness for claim C1 at a concrete collection and record. -/
theorem claim1_witness :
    lookupRec [⟨"feat", []⟩] (Record.mk "another-developer-feature" []).key = none ∧
    changedPaths (sparkTree [⟨"feat", []⟩])
        (sparkTree (collAdd [⟨"feat", []⟩] ⟨"another-developer-feature", []⟩)) =
      [["device", "features", "developer"]] ∧
    (eventsAt (addChangedPaths ["device", "features", "developer"] [⟨"feat", []⟩]
      ⟨"another-developer-feature", []⟩) []).count "change:device.features.developer" = 1 := by
  refine ⟨by decide, ?_, ?_⟩
  · exact (claim1_single_add_eight_scopes [⟨"feat", []⟩]
      ⟨"another-developer-feature", []⟩ (by decide)).2.1
  · exact (claim1_single_add_eight_scopes [⟨"feat", []⟩]
      ⟨"another-developer-feature", []⟩ (by decide)).2.2.2.2.2.2.2.2.2

/-- Claim C5: replacing one entry of the developer collection by a record with
the same identity key but different content, delivered through a whole-tree
snapshot replace, produces exactly the same one-event-per-scope pattern as a
single add (count one at all 8 scopes) with no spurious remove or add. -/
theorem claim5_single_update :
    ∀ (A B : List Record) (r r2 : Record),
      r.key ∉ recKeys A → r2.key = r.key → r2 ≠ r →
      collAddedKeys (A ++ r :: B) (A ++ r2 :: B) = [] ∧
      collRemovedKeys (A ++ r :: B) (A ++ r2 :: B) = [] ∧
      changedPaths (sparkTree (A ++ r :: B)) (sparkTree (A ++ r2 :: B)) =
        [["device", "features", "developer"]] ∧
      (replaceEventsAt (sparkTree (A ++ r :: B)) (sparkTree (A ++ r2 :: B))
        ["device", "features"]).count "change:developer" = 1 ∧
      (replaceEventsAt (sparkTree (A ++ r :: B)) (sparkTree (A ++ r2 :: B))
        ["device"]).count "change:features.developer" = 1 ∧
      (replaceEventsAt (sparkTree (A ++ r :: B)) (sparkTree (A ++ r2 :: B))
        ["device"]).count "change:features" = 1 ∧
      (replaceEventsAt (sparkTree (A ++ r :: B)) (sparkTree (A ++ r2 :: B))
        ["device"]).count "change" = 1 ∧
      (replaceEventsAt (sparkTree (A ++ r :: B)) (sparkTree (A ++ r2 :: B))
        []).count "change" = 1 ∧
      (replaceEventsAt (sparkTree (A ++ r :: B)) (sparkTree (A ++ r2 :: B))
        []).count "change:device" = 1 ∧
      (replaceEventsAt (sparkTree (A ++ r :: B)) (sparkTree (A ++ r2 :: B))
        []).count "change:device.features" = 1 ∧
      (replaceEventsAt (sparkTree (A ++ r :: B)) (sparkTree (A ++ r2 :: B))
        []).count "change:device.features.developer" = 1 := by
  intro A B r r2 hA hk hne
  have hkeys_old : recKeys (A ++ r :: B) = recKeys A ++ r.key :: recKeys B := by
    simp [recKeys]
  have hkeys_new : recKeys (A ++ r2 :: B) = recKeys A ++ r.key :: recKeys B := by
    simp [recKeys, hk]
  have hold : lookupRec (A ++ r :: B) r.key = some r := lookupRec_middle hA
  have hnew : lookupRec (A ++ r2 :: B) r.key = some r2 := by
    have := lookupRec_middle (A := A) (B := B) (x := r2) (by rwa [hk])
    rwa [hk] at this
  have hadded : collAddedKeys (A ++ r :: B) (A ++ r2 :: B) = [] := by
    unfold collAddedKeys
    apply List.filter_eq_nil_iff.mpr
    intro k hkm
    rw [hkeys_new] at hkm
    have : k ∈ recKeys (A ++ r :: B) := by rw [hkeys_old]; exact hkm
    obtain ⟨a, ha⟩ := Option.isSome_iff_exists.mp (lookupRec_isSome this)
    simp [ha]
  have hremoved : collRemovedKeys (A ++ r :: B) (A ++ r2 :: B) = [] := by
    unfold collRemovedKeys
    apply List.filter_eq_nil_iff.mpr
    intro k hkm
    rw [hkeys_old] at hkm
    have : k ∈ recKeys (A ++ r2 :: B) := by rw [hkeys_new]; exact hkm
    obtain ⟨a, ha⟩ := Option.isSome_iff_exists.mp (lookupRec_isSome this)
    simp [ha]
  have hmem : r.key ∈ collUpdatedKeys (A ++ r :: B) (A ++ r2 :: B) := by
    unfold collUpdatedKeys
    rw [List.mem_filter]
    refine ⟨by rw [hkeys_old]; simp, ?_⟩
    have hb : (r == r2) = false := by
      simpa using fun e => hne e.symm
    simp [hold, hnew, hb]
  have hch : collChangedB (A ++ r :: B) (A ++ r2 :: B) = true := by
    unfold collChangedB
    have he : (collUpdatedKeys (A ++ r :: B) (A ++ r2 :: B)).isEmpty = false := by
      simpa using List.ne_nil_of_mem hmem
    rw [he]
    simp
  have h2 : changedPaths (sparkTree (A ++ r :: B)) (sparkTree (A ++ r2 :: B)) =
      [["device", "features", "developer"]] := by
    simp [sparkTree, changedPaths, lookupChild, hch, collChangedB_self]
  refine ⟨hadded, hremoved, h2, ?_, ?_, ?_, ?_, ?_, ?_, ?_, ?_⟩ <;>
    (unfold replaceEventsAt; rw [h2]; decide)

/-- Witness for claim C5 at a concrete single-entry update. -/
theorem claim5_witness :
    collAddedKeys [⟨"f", [("value", Value.bool true)]⟩]
        [⟨"f", [("value", Value.bool false)]⟩] = [] ∧
    changedPaths (sparkTree [⟨"f", [("value", Value.bool true)]⟩])
        (sparkTree [⟨"f", [("value", Value.bool false)]⟩]) =
      [["device", "features", "developer"]] ∧
    (replaceEventsAt (sparkTree [⟨"f", [("value", Value.bool true)]⟩])
        (sparkTree [⟨"f", [("value", Value.bool false)]⟩]) []).count "change" = 1 := by
  have h := claim5_single_update [] [] ⟨"f", [("value", Value.bool true)]⟩
    ⟨"f", [("value", Value.bool false)]⟩ (by decide) rfl (by decide)
  exact ⟨h.1, h.2.2.1, h.2.2.2.2.2.2.2.1⟩

theorem spineMem_name : ∀ (t : Node) (name : String) (c : Node),
    spineMem name c t → name ∈ namesOf t := by
  intro t
  induction t with
  | attrs e => exact fun _ _ h => absurd h (by simp [spineMem])
  | coll i => exact fun _ _ h => absurd h (by simp [spineMem])
  | nil => exact fun _ _ h => absurd h (by simp [spineMem])
  | cons n cc rest ihc ihrest =>
    intro name c h
    rw [spineMem] at h
    rcases h with ⟨e, _⟩ | h2
    · simp [namesOf, e]
    · exact List.mem_cons_of_mem _ (ihrest name c h2)

theorem wf_cons {n : String} {c rest : Node} (h : wf (Node.cons n c rest) = true) :
    n ∉ namesOf rest ∧ wf c = true ∧ wf rest = true ∧ isSpine rest = true := by
  rw [wf] at h
  simp only [Bool.and_eq_true, Bool.not_eq_true'] at h
  refine ⟨?_, h.1.1.2, h.1.2, h.2⟩
  simpa using h.1.1.1

theorem wf_names_nodup : ∀ (t : Node), wf t = true → (namesOf t).Nodup := by
  intro t
  induction t with
  | attrs e => exact fun _ => by simp [namesOf]
  | coll i => exact fun _ => by simp [namesOf]
  | nil => exact fun _ => by simp [namesOf]
  | cons n cc rest ihc ihrest =>
    intro h
    obtain ⟨hn, _, hrest, _⟩ := wf_cons h
    exact List.nodup_cons.mpr ⟨hn, ihrest hrest⟩

theorem lookupChild_self : ∀ (t : Node) (name : String) (c : Node),
    (namesOf t).Nodup → spineMem name c t → lookupChild t name = some c := by
  intro t
  induction t with
  | attrs e => exact fun _ _ _ h => absurd h (by simp [spineMem])
  | coll i => exact fun _ _ _ h => absurd h (by simp [spineMem])
  | nil => exact fun _ _ _ h => absurd h (by simp [spineMem])
  | cons n cc rest ihc ihrest =>
    intro name c hnd hmem
    rw [spineMem] at hmem
    have hnd2 := List.nodup_cons.mp (by simpa [namesOf] using hnd)
    rcases hmem with ⟨e1, e2⟩ | h2
    · rw [lookupChild, if_pos (by simp [e1]), e2]
    · have hname : name ∈ namesOf rest := spineMem_name _ _ _ h2
      have hne : n ≠ name := fun e => hnd2.1 (e ▸ hname)
      rw [lookupChild, if_neg (by simpa using hne)]
      exact ihrest name c hnd2.2 h2

theorem sizeOf_spineMem : ∀ (t : Node) (name : String) (c : Node),
    spineMem name c t → sizeOf c < sizeOf t := by
  intro t
  induction t with
  | attrs e => exact fun _ _ h => absurd h (by simp [spineMem])
  | coll i => exact fun _ _ h => absurd h (by simp [spineMem])
  | nil => exact fun _ _ h => absurd h (by simp [spineMem])
  | cons n cc rest ihc ihrest =>
    intro name c h
    rw [spineMem] at h
    rcases h with ⟨_, e2⟩ | h2
    · subst e2
      simp_arith [Node.cons.sizeOf_spec]
    · have := ihrest name c h2
      simp_arith [Node.cons.sizeOf_spec]
      omega

theorem wf_spineMem : ∀ (t : Node) (name : String) (c : Node),
    wf t = true → spineMem name c t → wf c = true := by
  intro t
  induction t with
  | attrs e => exact fun _ _ _ h => absurd h (by simp [spineMem])
  | coll i => exact fun _ _ _ h => absurd h (by simp [spineMem])
  | nil => exact fun _ _ _ h => absurd h (by simp [spineMem])
  | cons n cc rest ihc ihrest =>
    intro name c hwf h
    obtain ⟨_, hc, hrest, _⟩ := wf_cons hwf
    rw [spineMem] at h
    rcases h with ⟨_, e2⟩ | h2
    · exact e2 ▸ hc
    · exact ihrest name c hrest h2

theorem changedPaths_spine : ∀ (t s : Node), isSpine t = true →
    (∀ name c, spineMem name c t →
      lookupChild s name = some c ∧ changedPaths c c = []) →
    changedPaths t s = [] := by
  intro t
  induction t with
  | attrs e => exact fun s hsp _ => absurd hsp (by simp [isSpine])
  | coll i => exact fun s hsp _ => absurd hsp (by simp [isSpine])
  | nil => exact fun s _ _ => rfl
  | cons n cc rest ihc ihrest =>
    intro s hsp h
    have hhead := h n cc (by rw [spineMem]; exact Or.inl ⟨rfl, rfl⟩)
    rw [changedPaths, hhead.1]
    show List.map (fun p => n :: p) (changedPaths cc cc) ++ changedPaths rest s = []
    rw [hhead.2]
    simp only [List.map_nil, List.nil_append]
    exact ihrest s (by simpa [isSpine] using hsp)
      (fun name c hm => h name c (by rw [spineMem]; exact Or.inr hm))

theorem changedPaths_self (t : Node) (h : wf t = true) : changedPaths t t = [] := by
  match t with
  | Node.attrs e =>
    rw [changedPaths, attrsChangedKeys_self]
    rfl
  | Node.coll i =>
    rw [changedPaths, collChangedB_self]
    rfl
  | Node.nil => rfl
  | Node.cons n c rest =>
    apply changedPaths_spine
    · have hw := wf_cons h
      simpa [isSpine] using hw.2.2.2
    · intro name cc hm
      have hwfc := wf_spineMem _ _ _ h hm
      exact ⟨lookupChild_self _ _ _ (wf_names_nodup _ h) hm, changedPaths_self cc hwfc⟩
termination_by sizeOf t
decreasing_by
  exact sizeOf_spineMem _ _ _ hm

/-- Claim C4: mutations that change nothing emit nothing — a self-identical
whole-tree replace produces zero changed paths and zero events at every
scope, a set of an already-present value emits nothing, and identical
replaceAll calls on collections and attribute sets produce empty dispatch
passes. -/
theorem claim4_noop_emits_nothing :
    ∀ (t : Node) (scope attrsPath collPath : Path)
      (entries : List (String × Value)) (k : String) (v : Value)
      (items : List Record),
      (wf t = true → changedPaths t t = [] ∧ replaceEventsAt t t scope = []) ∧
      (lookupVal entries k = some v →
        setChangedPaths attrsPath entries k v = [] ∧
        eventsAt (setChangedPaths attrsPath entries k v) scope = []) ∧
      collReplaceChangedPaths collPath items items = [] ∧
      attrsReplaceChangedPaths attrsPath entries entries = [] ∧
      eventsAt [] scope = [] := by
  intro t scope attrsPath collPath entries k v items
  refine ⟨?_, ?_, ?_, ?_, rfl⟩
  · intro hwf
    have hc := changedPaths_self t hwf
    refine ⟨hc, ?_⟩
    unfold replaceEventsAt
    rw [hc]
    rfl
  · intro h
    have hs : setChangedPaths attrsPath entries k v = [] := by
      unfold setChangedPaths
      rw [h]
      simp
    exact ⟨hs, by rw [hs]; rfl⟩
  · unfold collReplaceChangedPaths
    rw [collChangedB_self]
    rfl
  · unfold attrsReplaceChangedPaths
    rw [attrsChangedKeys_self]
    rfl

/-- Witness for claim C4 on the concrete fixture tree. -/
theorem claim4_witness :
    wf (sparkTree [⟨"f", []⟩]) = true ∧
    changedPaths (sparkTree [⟨"f", []⟩]) (sparkTree [⟨"f", []⟩]) = [] ∧
    replaceEventsAt (sparkTree [⟨"f", []⟩]) (sparkTree [⟨"f", []⟩]) [] = [] ∧
    lookupVal [("u", Value.str "x")] "u" = some (Value.str "x") ∧
    setChangedPaths ["device"] [("u", Value.str "x")] "u" (Value.str "x") = [] := by
  have h1 := (claim4_noop_emits_nothing (sparkTree [⟨"f", []⟩]) [] ["device"] []
    [("u", Value.str "x")] "u" (Value.str "x") []).1 (by decide)
  have h2 := (claim4_noop_emits_nothing (sparkTree [⟨"f", []⟩]) [] ["device"] []
    [("u", Value.str "x")] "u" (Value.str "x") []).2.1 (by decide)
  exact ⟨by decide, h1.1, h1.2, by decide, h2.1⟩

/-- Claim C8: a replaceAll batch containing entries without the identity key
rejects each malformed entry individually with a MalformedEntryError, still
processes every well-formed entry of the same batch, and the resulting
dispatch pass delivers at most one event per name at every listener scope —
exactly one generic `change` along the collection path when the valid entries
changed anything. -/
theorem claim8_malformed_entries :
    ∀ (collPath : Path) (old : List Record) (batch : List RawRecord),
      ((checkedReplaceAll collPath old batch).1).length =
        (batch.filter (fun r => r.key.isNone)).length ∧
      (∀ r, r ∈ batch → r.key = none →
        MalformedEntryError.mk r ∈ (checkedReplaceAll collPath old batch).1) ∧
      (∀ r k, r ∈ batch → r.key = some k →
        (⟨k, r.fields⟩ : Record) ∈ (checkedReplaceAll collPath old batch).2.1) ∧
      (∀ scope e,
        ((eventsAt ((checkedReplaceAll collPath old batch).2.2) scope).count e) ≤ 1) ∧
      (collChangedB old (batch.filterMap toRecord) = true →
        ∀ scope rest, collPath = scope ++ rest →
          ((eventsAt ((checkedReplaceAll collPath old batch).2.2) scope).count
            "change") = 1) := by
  intro collPath old batch
  refine ⟨by simp [checkedReplaceAll], ?_, ?_, ?_, ?_⟩
  · intro r hr hk
    unfold checkedReplaceAll
    simp only [List.mem_map]
    exact ⟨r, List.mem_filter.mpr ⟨hr, by simp [hk]⟩, rfl⟩
  · intro r k hr hk
    unfold checkedReplaceAll
    simp only [List.mem_filterMap]
    exact ⟨r, hr, by simp [toRecord, hk]⟩
  · intro scope e
    exact count_firedEvents_le_one _ e
  · intro hch scope rest hpre
    unfold checkedReplaceAll collReplaceChangedPaths
    simp only [hch, if_pos]
    apply count_change_firedEvents
    subst hpre
    simp [relativize, pathLe_append]

/-- Witness for claim C8: a batch with one malformed and one valid entry. -/
theorem claim8_witness :
    ((checkedReplaceAll ["c"] [] [⟨none, []⟩, ⟨some "g", []⟩]).1).length = 1 ∧
    (⟨"g", []⟩ : Record) ∈ (checkedReplaceAll ["c"] [] [⟨none, []⟩, ⟨some "g", []⟩]).2.1 ∧
    ((eventsAt ((checkedReplaceAll ["c"] [] [⟨none, []⟩, ⟨some "g", []⟩]).2.2)
      []).count "change") = 1 := by
  refine ⟨?_, ?_, ?_⟩
  · have h := (claim8_malformed_entries ["c"] [] [⟨none, []⟩, ⟨some "g", []⟩]).1
    simpa using h
  · exact (claim8_malformed_entries ["c"] [] [⟨none, []⟩, ⟨some "g", []⟩]).2.2.1
      ⟨some "g", []⟩ "g" (by simp) rfl
  · exact (claim8_malformed_entries ["c"] [] [⟨none, []⟩, ⟨some "g", []⟩]).2.2.2.2
      (by decide) [] ["c"] rfl

theorem traceAux_true (p : Path) (t s : Node) :
    traceAux true p t s = traceAux false p t s ++ ownEvents p (changedPaths t s) := by
  rw [traceAux]

theorem traceAux_false_cons_some {s : Node} {name : String} {c2 : Node}
    (p : Path) (c rest : Node) (hl : lookupChild s name = some c2) :
    traceAux false p (Node.cons name c rest) s =
      traceAux true (p ++ [name]) c c2 ++ traceAux false p rest s := by
  conv_lhs => rw [traceAux]
  rw [hl]

theorem traceAux_false_cons_none {s : Node} {name : String}
    (p : Path) (c rest : Node) (hl : lookupChild s name = none) :
    traceAux false p (Node.cons name c rest) s = traceAux false p rest s := by
  conv_lhs => rw [traceAux]
  rw [hl]
  simp

theorem traceAux_false_attrs (p : Path) (e : List (String × Value)) (s : Node) :
    traceAux false p (Node.attrs e) s = [] := by
  rw [traceAux]
  intro name c rest h
  exact Node.noConfusion h

theorem traceAux_false_coll (p : Path) (i : List Record) (s : Node) :
    traceAux false p (Node.coll i) s = [] := by
  rw [traceAux]
  intro name c rest h
  exact Node.noConfusion h

theorem traceAux_false_nil (p : Path) (s : Node) :
    traceAux false p Node.nil s = [] := by
  rw [traceAux]
  intro name c rest h
  exact Node.noConfusion h

theorem pathLe_iff : ∀ (p q : Path), pathLe p q = true ↔ p <+: q := by
  intro p
  induction p with
  | nil =>
    intro q
    simp [pathLe]
  | cons x xs ih =>
    intro q
    cases q with
    | nil => simp [pathLe]
    | cons y ys => simp [pathLe, ih ys]

theorem prefix_comparable {a b l : Path} (ha : a <+: l) (hb : b <+: l) :
    a <+: b ∨ b <+: a := by
  rcases Nat.le_total a.length b.length with h | h
  · exact Or.inl (List.prefix_of_prefix_length_le ha hb h)
  · exact Or.inr (List.prefix_of_prefix_length_le hb ha h)

theorem prefix_head_eq {r : Path} {d m : String} {t0 q2 l : Path}
    (h1 : (r ++ d :: t0) <+: l) (h2 : l = r ++ m :: q2) : d = m := by
  rw [h2] at h1
  obtain ⟨v, hv⟩ := h1
  simp only [List.append_assoc, List.cons_append, List.append_cancel_left_eq,
    List.cons.injEq] at hv
  exact hv.1

theorem sib_noUnder {q1 q2 r : Path} (hlen : q1.length = q2.length)
    (hq : q1 ≠ q2) (h1r : q1 <+: r) {x : Path} (hrx : r <+: x) :
    ¬ q2 <+: x := by
  intro hq2x
  rcases prefix_comparable hq2x hrx with h | h
  · rcases prefix_comparable h1r h with h2 | h2
    · exact hq (h2.sublist.eq_of_length hlen)
    · exact hq ((h2.sublist.eq_of_length hlen.symm).symm)
  · exact hq ((h1r.trans h).sublist.eq_of_length hlen)

theorem splitBefore_of_noQ {l : List (Path × String)} {P Q : Path × String → Prop}
    (h : ∀ x ∈ l, ¬ Q x) : SplitBefore l P Q :=
  ⟨l, [], by simp, h, by simp⟩

theorem splitBefore_of_noP {l : List (Path × String)} {P Q : Path × String → Prop}
    (h : ∀ x ∈ l, ¬ P x) : SplitBefore l P Q :=
  ⟨[], l, by simp, by simp, h⟩

theorem splitBefore_append_right {l m : List (Path × String)}
    {P Q : Path × String → Prop} (hl : SplitBefore l P Q)
    (hm : ∀ x ∈ m, ¬ P x) : SplitBefore (l ++ m) P Q := by
  obtain ⟨A, B, rfl, hA, hB⟩ := hl
  exact ⟨A, B ++ m, by simp, hA,
    fun x hx => (List.mem_append.mp hx).elim (hB x) (hm x)⟩

theorem splitBefore_append_left {l m : List (Path × String)}
    {P Q : Path × String → Prop} (hl : ∀ x ∈ l, ¬ Q x)
    (hm : SplitBefore m P Q) : SplitBefore (l ++ m) P Q := by
  obtain ⟨A, B, rfl, hA, hB⟩ := hm
  exact ⟨l ++ A, B, by simp,
    fun x hx => (List.mem_append.mp hx).elim (hl x) (hA x), hB⟩

theorem trace_scope (fl : Bool) (r : Path) (t s : Node) :
    ∀ x, x ∈ traceAux fl r t s →
      (∃ q, x.1 = r ++ q) ∧
      (fl = false → ∃ m q2, x.1 = r ++ m :: q2 ∧ m ∈ namesOf t) := by
  match fl, t with
  | true, t =>
    intro x hx
    rw [traceAux_true] at hx
    rcases List.mem_append.mp hx with h1 | h2
    · exact ⟨(trace_scope false r t s x h1).1, fun h => Bool.noConfusion h⟩
    · obtain ⟨e, _, hx2⟩ := List.mem_map.mp h2
      exact ⟨⟨[], by rw [← hx2]; simp⟩, fun h => Bool.noConfusion h⟩
  | false, Node.cons name c rest =>
    intro x hx
    cases hl : lookupChild s name with
    | some c2 =>
      rw [traceAux_false_cons_some r c rest hl] at hx
      rcases List.mem_append.mp hx with h1 | h2
      · obtain ⟨q, hq⟩ := (trace_scope true (r ++ [name]) c c2 x h1).1
        refine ⟨⟨name :: q, by rw [hq]; simp⟩, fun _ => ?_⟩
        exact ⟨name, q, by rw [hq]; simp, by simp [namesOf]⟩
      · obtain ⟨h3, h4⟩ := trace_scope false r rest s x h2
        refine ⟨h3, fun _ => ?_⟩
        obtain ⟨m, q2, hm1, hm2⟩ := h4 rfl
        exact ⟨m, q2, hm1, by simp [namesOf, hm2]⟩
    | none =>
      rw [traceAux_false_cons_none r c rest hl] at hx
      obtain ⟨h3, h4⟩ := trace_scope false r rest s x hx
      refine ⟨h3, fun _ => ?_⟩
      obtain ⟨m, q2, hm1, hm2⟩ := h4 rfl
      exact ⟨m, q2, hm1, by simp [namesOf, hm2]⟩
  | false, Node.attrs e =>
    intro x hx
    rw [traceAux_false_attrs] at hx
    exact absurd hx (List.not_mem_nil x)
  | false, Node.coll i =>
    intro x hx
    rw [traceAux_false_coll] at hx
    exact absurd hx (List.not_mem_nil x)
  | false, Node.nil =>
    intro x hx
    rw [traceAux_false_nil] at hx
    exact absurd hx (List.not_mem_nil x)
termination_by 2 * sizeOf t + (if fl then 1 else 0)
decreasing_by
  all_goals simp_arith [Node.cons.sizeOf_spec]

theorem block_scope {r : Path} {name : String} {c c2 : Node} :
    ∀ x, x ∈ traceAux true (r ++ [name]) c c2 → ∃ q, x.1 = r ++ name :: q := by
  intro x hx
  obtain ⟨q, hq⟩ := (trace_scope true (r ++ [name]) c c2 x hx).1
  exact ⟨q, by rw [hq]; simp⟩

theorem trace_bottom_up (fl : Bool) (r : Path) (t s : Node) (p : Path)
    (hwf : wf t = true) :
    SplitBefore (traceAux fl r t s) (scopeExt p) (scopeIs p) := by
  match fl, t with
  | true, t =>
    by_cases hrp : pathLe r p = true
    · by_cases hpr : p = r
      · rw [traceAux_true]
        refine ⟨traceAux false r t s, ownEvents r (changedPaths t s), rfl, ?_, ?_⟩
        · intro x hx hQ
          obtain ⟨m, q2, hm1, _⟩ := (trace_scope false r t s x hx).2 rfl
          rw [hQ, hpr] at hm1
          have hlen := congrArg List.length hm1
          simp at hlen
        · intro x hx hP
          obtain ⟨e, _, hx2⟩ := List.mem_map.mp hx
          exact hP.2 (by rw [← hx2, hpr])
      · rw [traceAux_true]
        apply splitBefore_append_right
        · exact trace_bottom_up false r t s p hwf
        · intro x hx hP
          obtain ⟨e, _, hx2⟩ := List.mem_map.mp hx
          have hxr : x.1 = r := by rw [← hx2]
          have h1 : p <+: r := by rw [← hxr]; exact (pathLe_iff p x.1).mp hP.1
          have h2 : r <+: p := (pathLe_iff r p).mp hrp
          exact hpr (h1.sublist.eq_of_length
            (Nat.le_antisymm h1.length_le h2.length_le))
    · apply splitBefore_of_noQ
      intro x hx hQ
      obtain ⟨q, hq⟩ := (trace_scope true r t s x hx).1
      exact hrp ((pathLe_iff r p).mpr ⟨q, by rw [← hq, hQ]⟩)
  | false, Node.cons name c rest =>
    have hw := wf_cons hwf
    by_cases hrp : pathLe r p = true
    · by_cases hpr : p = r
      · apply splitBefore_of_noQ
        intro x hx hQ
        obtain ⟨m, q2, hm1, _⟩ :=
          (trace_scope false r (Node.cons name c rest) s x hx).2 rfl
        rw [hQ, hpr] at hm1
        have hlen := congrArg List.length hm1
        simp at hlen
      · obtain ⟨u, hu⟩ := (pathLe_iff r p).mp hrp
        have hune : u ≠ [] := by
          intro h
          rw [h, List.append_nil] at hu
          exact hpr hu.symm
        obtain ⟨n0, tail, htail⟩ := List.exists_cons_of_ne_nil hune
        subst htail
        cases hl : lookupChild s name with
        | some c2 =>
          rw [traceAux_false_cons_some r c rest hl]
          by_cases hname : name = n0
          · apply splitBefore_append_right
            · exact trace_bottom_up true (r ++ [name]) c c2 p hw.2.1
            · intro x hx hP
              obtain ⟨m, q2, hm1, hm2⟩ := (trace_scope false r rest s x hx).2 rfl
              have hpx : (r ++ n0 :: tail) <+: x.1 := by
                rw [hu]
                exact (pathLe_iff p x.1).mp hP.1
              have hnm := prefix_head_eq hpx hm1
              exact hw.1 (by rw [hname, hnm]; exact hm2)
          · apply splitBefore_append_left
            · intro x hx hQ
              obtain ⟨q, hq⟩ := block_scope x hx
              have hpx : (r ++ n0 :: tail) <+: x.1 := by
                rw [hQ, ← hu]
              exact hname (prefix_head_eq hpx hq).symm
            · exact trace_bottom_up false r rest s p hw.2.2.1
        | none =>
          rw [traceAux_false_cons_none r c rest hl]
          exact trace_bottom_up false r rest s p hw.2.2.1
    · apply splitBefore_of_noQ
      intro x hx hQ
      obtain ⟨q, hq⟩ := (trace_scope false r (Node.cons name c rest) s x hx).1
      exact hrp ((pathLe_iff r p).mpr ⟨q, by rw [← hq, hQ]⟩)
  | false, Node.attrs e =>
    rw [traceAux_false_attrs]
    exact splitBefore_of_noQ (by simp)
  | false, Node.coll i =>
    rw [traceAux_false_coll]
    exact splitBefore_of_noQ (by simp)
  | false, Node.nil =>
    rw [traceAux_false_nil]
    exact splitBefore_of_noQ (by simp)
termination_by 2 * sizeOf t + (if fl then 1 else 0)
decreasing_by
  all_goals simp_arith [Node.cons.sizeOf_spec]

theorem trace_siblings (fl : Bool) (r : Path) (t s : Node) (p : Path)
    (n1 n2 : String) (hwf : wf t = true) (hne : n1 ≠ n2) :
    SplitBefore (traceAux fl r t s) (under (p ++ [n1])) (under (p ++ [n2])) ∨
    SplitBefore (traceAux fl r t s) (under (p ++ [n2])) (under (p ++ [n1])) := by
  have hq12 : (p ++ [n1]) ≠ (p ++ [n2]) := by
    intro h
    exact hne (by simpa using List.append_cancel_left h)
  have hlen : (p ++ [n1]).length = (p ++ [n2]).length := by simp
  by_cases h1r : (p ++ [n1]) <+: r
  · left
    apply splitBefore_of_noQ
    intro x hx hQ
    obtain ⟨q, hq⟩ := (trace_scope fl r t s x hx).1
    exact sib_noUnder hlen hq12 h1r ⟨q, hq.symm⟩ ((pathLe_iff _ _).mp hQ)
  by_cases h2r : (p ++ [n2]) <+: r
  · left
    apply splitBefore_of_noP
    intro x hx hP
    obtain ⟨q, hq⟩ := (trace_scope fl r t s x hx).1
    exact sib_noUnder hlen.symm (fun h => hq12 h.symm) h2r ⟨q, hq.symm⟩
      ((pathLe_iff _ _).mp hP)
  by_cases hr1 : r <+: (p ++ [n1])
  · by_cases hr2 : r <+: (p ++ [n2])
    · obtain ⟨u1, hu1⟩ := hr1
      have hu1ne : u1 ≠ [] := by
        intro h
        rw [h, List.append_nil] at hu1
        exact h1r (hu1 ▸ List.prefix_refl _)
      obtain ⟨d1, t1, ht1⟩ := List.exists_cons_of_ne_nil hu1ne
      subst ht1
      obtain ⟨u2, hu2⟩ := hr2
      have hu2ne : u2 ≠ [] := by
        intro h
        rw [h, List.append_nil] at hu2
        exact h2r (hu2 ▸ List.prefix_refl _)
      obtain ⟨d2, t2, ht2⟩ := List.exists_cons_of_ne_nil hu2ne
      subst ht2
      match fl, t with
      | true, t =>
        rw [traceAux_true]
        rcases trace_siblings false r t s p n1 n2 hwf hne with h | h
        · left
          apply splitBefore_append_right h
          intro x hx hP
          obtain ⟨e, _, hx2⟩ := List.mem_map.mp hx
          have hxr : x.1 = r := by rw [← hx2]
          have hpre : (p ++ [n1]) <+: r := by
            rw [← hxr]
            exact (pathLe_iff _ _).mp hP
          exact h1r hpre
        · right
          apply splitBefore_append_right h
          intro x hx hP
          obtain ⟨e, _, hx2⟩ := List.mem_map.mp hx
          have hxr : x.1 = r := by rw [← hx2]
          have hpre : (p ++ [n2]) <+: r := by
            rw [← hxr]
            exact (pathLe_iff _ _).mp hP
          exact h2r hpre
      | false, Node.cons name c rest =>
        have hw := wf_cons hwf
        cases hl : lookupChild s name with
        | some c2 =>
          rw [traceAux_false_cons_some r c rest hl]
          by_cases hd1 : d1 = name
          · by_cases hd2 : d2 = name
            · rcases trace_siblings true (r ++ [name]) c c2 p n1 n2 hw.2.1 hne
                with h | h
              · left
                apply splitBefore_append_right h
                intro x hx hP
                obtain ⟨m, qm, hm1, hm2⟩ := (trace_scope false r rest s x hx).2 rfl
                have hpx : (r ++ d1 :: t1) <+: x.1 := by
                  rw [hu1]
                  exact (pathLe_iff _ _).mp hP
                have hdm := prefix_head_eq hpx hm1
                exact hw.1 (by rw [← hd1, hdm]; exact hm2)
              · right
                apply splitBefore_append_right h
                intro x hx hP
                obtain ⟨m, qm, hm1, hm2⟩ := (trace_scope false r rest s x hx).2 rfl
                have hpx : (r ++ d2 :: t2) <+: x.1 := by
                  rw [hu2]
                  exact (pathLe_iff _ _).mp hP
                have hdm := prefix_head_eq hpx hm1
                exact hw.1 (by rw [← hd2, hdm]; exact hm2)
            · left
              refine ⟨traceAux true (r ++ [name]) c c2, traceAux false r rest s,
                rfl, ?_, ?_⟩
              · intro x hx hQ
                obtain ⟨q, hq⟩ := block_scope x hx
                have hpx : (r ++ d2 :: t2) <+: x.1 := by
                  rw [hu2]
                  exact (pathLe_iff _ _).mp hQ
                exact hd2 (prefix_head_eq hpx hq)
              · intro x hx hP
                obtain ⟨m, qm, hm1, hm2⟩ := (trace_scope false r rest s x hx).2 rfl
                have hpx : (r ++ d1 :: t1) <+: x.1 := by
                  rw [hu1]
                  exact (pathLe_iff _ _).mp hP
                have hdm := prefix_head_eq hpx hm1
                exact hw.1 (by rw [← hd1, hdm]; exact hm2)
          · by_cases hd2 : d2 = name
            · right
              refine ⟨traceAux true (r ++ [name]) c c2, traceAux false r rest s,
                rfl, ?_, ?_⟩
              · intro x hx hQ
                obtain ⟨q, hq⟩ := block_scope x hx
                have hpx : (r ++ d1 :: t1) <+: x.1 := by
                  rw [hu1]
                  exact (pathLe_iff _ _).mp hQ
                exact hd1 (prefix_head_eq hpx hq)
              · intro x hx hP
                obtain ⟨m, qm, hm1, hm2⟩ := (trace_scope false r rest s x hx).2 rfl
                have hpx : (r ++ d2 :: t2) <+: x.1 := by
                  rw [hu2]
                  exact (pathLe_iff _ _).mp hP
                have hdm := prefix_head_eq hpx hm1
                exact hw.1 (by rw [← hd2, hdm]; exact hm2)
            · rcases trace_siblings false r rest s p n1 n2 hw.2.2.1 hne with h | h
              · left
                apply splitBefore_append_left ?_ h
                intro x hx hQ
                obtain ⟨q, hq⟩ := block_scope x hx
                have hpx : (r ++ d2 :: t2) <+: x.1 := by
                  rw [hu2]
                  exact (pathLe_iff _ _).mp hQ
                exact hd2 (prefix_head_eq hpx hq)
              · right
                apply splitBefore_append_left ?_ h
                intro x hx hQ
                obtain ⟨q, hq⟩ := block_scope x hx
                have hpx : (r ++ d1 :: t1) <+: x.1 := by
                  rw [hu1]
                  exact (pathLe_iff _ _).mp hQ
                exact hd1 (prefix_head_eq hpx hq)
        | none =>
          rw [traceAux_false_cons_none r c rest hl]
          exact trace_siblings false r rest s p n1 n2 hw.2.2.1 hne
      | false, Node.attrs e =>
        rw [traceAux_false_attrs]
        exact Or.inl (splitBefore_of_noP (by simp))
      | false, Node.coll i =>
        rw [traceAux_false_coll]
        exact Or.inl (splitBefore_of_noP (by simp))
      | false, Node.nil =>
        rw [traceAux_false_nil]
        exact Or.inl (splitBefore_of_noP (by simp))
    · left
      apply splitBefore_of_noQ
      intro x hx hQ
      obtain ⟨q, hq⟩ := (trace_scope fl r t s x hx).1
      rcases prefix_comparable ((pathLe_iff _ _).mp hQ) ⟨q, hq.symm⟩ with h | h
      · exact h2r h
      · exact hr2 h
  · left
    apply splitBefore_of_noP
    intro x hx hP
    obtain ⟨q, hq⟩ := (trace_scope fl r t s x hx).1
    rcases prefix_comparable ((pathLe_iff _ _).mp hP) ⟨q, hq.symm⟩ with h | h
    · exact h1r h
    · exact hr1 h
termination_by 2 * sizeOf t + (if fl then 1 else 0)
decreasing_by
  all_goals simp_arith [Node.cons.sizeOf_spec]

/-- Claim C7: within one dispatch pass, every event delivered at a strict
descendant of a scope precedes every event delivered at that scope itself
(a leaf's local change fires before any bubbled version of it, and bubbling
is strictly bottom-up), and the events of two distinct sibling subtrees never
interleave: one subtree's events all precede the other's. -/
theorem claim7_dispatch_ordering :
    ∀ (t s : Node) (p : Path) (n1 n2 : String), wf t = true → n1 ≠ n2 →
      SplitBefore (fullTrace t s) (scopeExt p) (scopeIs p) ∧
      (SplitBefore (fullTrace t s) (under (p ++ [n1])) (under (p ++ [n2])) ∨
       SplitBefore (fullTrace t s) (under (p ++ [n2])) (under (p ++ [n1]))) :=
  fun t s p n1 n2 hwf hne =>
    ⟨trace_bottom_up true [] t s p hwf,
     trace_siblings true [] t s p n1 n2 hwf hne⟩

/-- Witness for claim C7 on the fixture tree, for the device scope and the
sibling names developer and entitlement. -/
theorem claim7_witness :
    wf (sparkTree [⟨"f", []⟩]) = true ∧
    "developer" ≠ "entitlement" ∧
    SplitBefore (fullTrace (sparkTree [⟨"f", []⟩]) (sparkTree []))
      (scopeExt ["device", "features"]) (scopeIs ["device", "features"]) ∧
    (SplitBefore (fullTrace (sparkTree [⟨"f", []⟩]) (sparkTree []))
        (under (["device", "features"] ++ ["developer"]))
        (under (["device", "features"] ++ ["entitlement"])) ∨
     SplitBefore (fullTrace (sparkTree [⟨"f", []⟩]) (sparkTree []))
        (under (["device", "features"] ++ ["entitlement"]))
        (under (["device", "features"] ++ ["developer"]))) := by
  have h := claim7_dispatch_ordering (sparkTree [⟨"f", []⟩]) (sparkTree [])
    ["device", "features"] "developer" "entitlement" (by decide) (by decide)
  exact ⟨by decide, by decide, h.1, h.2⟩

end SparkModel
